import Mathlib

/-!
Verification of the Apriori mining engine (`src/apriori.py`) against its
natural-language specification.

Modelling conventions, chosen to mirror the Python source:

* Items are opaque identifiers; the source uses strings, here they are
  encoded as natural numbers.  A Python `frozenset` of items becomes a
  `Finset ℕ`; the transaction list becomes `List (Finset ℕ)`.
* Python float arithmetic on support ratios is modelled with exact
  rationals `ℚ`.  Ratios computed by the engine are written with
  `Rat.divInt` (kernel-computable); the lemma `ratioOf_eq_div` proves this
  equals the source's `count / n` division.
* The mutable attributes of the `AprioriMiner` object become the fields of
  the `MinerState` structure; each method becomes a function from (and,
  when the source mutates `self`, to) `MinerState`.
* `random.sample(population, k)` is modelled by `randomSample`: it draws
  `k` elements one at a time, each step removing the drawn element from
  the remaining population (sampling without replacement), the draws being
  driven by an ambient stream `rng : ℕ → ℕ` of random numbers.  As in
  Python, it fails (`none`, modelling `ValueError`) when `k` exceeds the
  population size.
* A Python `frozenset` iterates its elements in hash-table order, which
  for the source's string items is. not the canonical sorted order and not
  predictable; `list(frozenset)` is therefore modelled by an explicit
  enumeration parameter `enum : Finset ℕ → List ℕ` (and `enum2` for sets
  of itemsets).  Iterating a CPython set of small non-negative ints yields
  ascending order, which `enumFS` implements; it serves as one concrete
  valid enumeration.
* The `while` loop of `mine_frequent_itemsets` is modelled with a fuel
  parameter; `MineResult.fuelOut` marks fuel exhaustion (never reached for
  sufficient fuel, see the termination theorem), `MineResult.sampleError`
  models the `ValueError` escaping from `random.sample`.
-/

set_option maxRecDepth 20000

set_option maxHeartbeats 1000000

/-- State of an `AprioriMiner` object: the attributes assigned in
`AprioriMiner.__init__` (src/apriori.py lines 18-29).  `frequent_itemsets`
is the per-level output table (the Python dict maps the consecutive keys
`1, 2, ...`, so a list indexed by `level - 1` represents it);
`boundary_sets` is the set of known-infrequent itemsets; and
`unique_transactions` is the shrinking active-index set. -/
structure MinerState where
  transactions : List (Finset ℕ)
  min_support : ℚ
  n_transactions : ℕ
  sample_size : ℕ
  z_score : ℚ
  frequent_itemsets : List (Finset (Finset ℕ))
  boundary_sets : Finset (Finset ℕ)
  unique_transactions : Finset ℕ
deriving DecidableEq

/-- `AprioriMiner.__init__(transactions, min_support, sample_size,
confidence_level)` (src/apriori.py lines 8-29).  The source performs no
validation whatsoever: every field is a direct assignment, `sample_size`
is capped at the transaction count, the z-score is the constant `1.96`,
and `confidence_level` is never stored nor read. -/
def AprioriMiner.init (transactions : List (Finset ℕ)) (min_support : ℚ)
    (sample_size : ℕ) (confidence_level : ℚ) : MinerState :=
  { transactions := transactions
    min_support := min_support
    n_transactions := transactions.length
    sample_size := min sample_size transactions.length
    z_score := Rat.divInt 196 100
    frequent_itemsets := []
    boundary_sets := ∅
    unique_transactions := Finset.range transactions.length }

/-- `self.transactions[idx]`.  Out-of-range access is a fatal programming
error in the source (spec section 4.1); the model totalises it with `∅`,
and every index the engine ever produces is in range. -/
def txGet (m : MinerState) (idx : ℕ) : Finset ℕ := m.transactions.getD idx ∅

/-- Support ratio `count / n` as computed by the source (float division);
modelled as the exact rational `Rat.divInt count n`.  The lemma
`ratioOf_eq_div` identifies this with `(count : ℚ) / (n : ℚ)`. -/
def ratioOf (count n : ℕ) : ℚ := Rat.divInt count n

/-- Ascending enumeration of a finite set of naturals.  This is exactly
the iteration order CPython uses for a set of small non-negative integers
(the transaction indices of `self.unique_transactions`), and it is one
valid linearisation of a `frozenset`. -/
def enumFS (s : Finset ℕ) : List ℕ :=
  (List.range (s.sup id + 1)).filter fun i => decide (i ∈ s)

/-- `list(self.unique_transactions)` (src/apriori.py line 45). -/
def activeList (m : MinerState) : List ℕ := enumFS m.unique_transactions

/-- One draw at a time without replacement: step `i` picks the element at
position `rng i % |remaining|` of the remaining population and removes it.
This realises `random.sample(pop, k)`'s contract (a length-`k` list of
distinct elements of `pop`). -/
def sampleAux (rng : ℕ → ℕ) : ℕ → List ℕ → ℕ → List ℕ
  | _, _, 0 => []
  | i, pop, k + 1 =>
    (pop.getD (rng i % pop.length) 0) ::
      sampleAux rng (i + 1) (pop.erase (pop.getD (rng i % pop.length) 0)) k

/-- `random.sample(population, k)` (Python stdlib): a simple random sample
without replacement of size `k`; raises `ValueError` — modelled by `none`
— when `k` exceeds the population size. -/
def randomSample (rng : ℕ → ℕ) (pop : List ℕ) (k : ℕ) : Option (List ℕ) :=
  if k ≤ pop.length then some (sampleAux rng 0 pop k) else none

/-- Decision of `upper_bound >= self.min_support` in
`AprioriMiner.estimate_support` (src/apriori.py lines 52-55), where
`upper_bound = p_hat + z * sqrt(p_hat * (1 - p_hat) / sample_size)`.
To stay inside `ℚ` the square root is eliminated by squaring: when
`min_support ≤ p_hat` the bound trivially holds (the margin is
non-negative), otherwise the test is the squared comparison
`(min_support - p_hat)^2 ≤ z^2 * (p_hat * (1 - p_hat) / sample_size)`.
The products and differences are spelled with `Rat.divInt` over
numerators/denominators (`qmul`, `qsub`, `qdivN` below) so that the
function evaluates by kernel reduction; `estimateAccept_iff_sqrt` proves
the whole decision equivalent to the source's square-root formula. -/
def qmul (a b : ℚ) : ℚ := Rat.divInt (a.num * b.num) ((a.den : ℤ) * (b.den : ℤ))

def qsub (a b : ℚ) : ℚ :=
  Rat.divInt (a.num * (b.den : ℤ) - b.num * (a.den : ℤ)) ((a.den : ℤ) * (b.den : ℤ))

def qdivN (a : ℚ) (n : ℕ) : ℚ := Rat.divInt a.num ((a.den : ℤ) * (n : ℤ))

def estimateAccept (z p_hat min_support : ℚ) (sample_size : ℕ) : Bool :=
  if min_support ≤ p_hat then true
  else decide (qmul (qsub min_support p_hat) (qsub min_support p_hat) ≤
    qmul (qmul z z) (qdivN (qmul p_hat (qsub 1 p_hat)) sample_size))

/-- `AprioriMiner.estimate_support(itemset)` (src/apriori.py lines 31-55):
draw `random.sample(list(self.unique_transactions), self.sample_size)`,
count the sampled transactions containing the itemset, form
`p_hat = count / self.sample_size`, and accept when the one-sided upper
confidence bound `p_hat + z * sqrt(p_hat*(1-p_hat)/sample_size)` reaches
`self.min_support` (see `estimateAccept`).  A `ValueError` escaping from
`random.sample` is `none`. -/
def AprioriMiner.estimate_support (rng : ℕ → ℕ) (m : MinerState)
    (itemset : Finset ℕ) : Option Bool :=
  match randomSample rng (activeList m) m.sample_size with
  | none => none
  | some sample_indices =>
    some (estimateAccept m.z_score
      (ratioOf ((sample_indices.filter fun idx => decide (itemset ⊆ txGet m idx)).length)
        m.sample_size)
      m.min_support m.sample_size)

/-- Items occurring in some active transaction: exactly the keys of the
`item_counts` dictionary built by `find_frequent_1_itemsets`
(src/apriori.py lines 63-68), since a key is created iff its count is
incremented at least once. -/
def allItems (m : MinerState) : Finset ℕ :=
  m.unique_transactions.biUnion fun idx => txGet m idx

/-- `item_counts[item]` after the scan of `find_frequent_1_itemsets`:
each transaction is a set, so the item is counted once per active
transaction containing it. -/
def itemCount (m : MinerState) (item : ℕ) : ℕ :=
  (m.unique_transactions.filter fun idx => item ∈ txGet m idx).card

/-- `AprioriMiner.find_frequent_1_itemsets()` (src/apriori.py lines
57-80): items with `count / self.n_transactions >= self.min_support`
become frequent singletons, the rest are added to `self.boundary_sets`;
returns the updated state and the frequent 1-itemsets. -/
def AprioriMiner.find_frequent_1_itemsets (m : MinerState) :
    MinerState × Finset (Finset ℕ) :=
  ({ m with boundary_sets := m.boundary_sets ∪
      (((allItems m).filter fun i =>
        ratioOf (itemCount m i) m.n_transactions < m.min_support).image
          fun i => ({i} : Finset ℕ)) },
   ((allItems m).filter fun i =>
      m.min_support ≤ ratioOf (itemCount m i) m.n_transactions).image
        fun i => ({i} : Finset ℕ))

/-- All pairs `(l[i], l[j])` with `i < j`: the double loop
`for i in range(len(prev_list)): for j in range(i+1, len(prev_list))` of
`generate_candidates` (src/apriori.py lines 91-92). -/
def pairsList {α : Type*} : List α → List (α × α)
  | [] => []
  | x :: xs => (xs.map fun y => (x, y)) ++ pairsList xs

/-- The join step of `generate_candidates` in isolation (src/apriori.py
lines 97-99, before any pruning): the unions of those loop pairs whose
lists-without-last-element — `list(items)[:-1]` under the frozenset
iteration order `enum` — coincide. -/
def joinPairs (enum : Finset ℕ → List ℕ) (l : List (Finset ℕ)) :
    Finset (Finset ℕ) :=
  (((pairsList l).filter fun p =>
      decide ((enum p.1).dropLast = (enum p.2).dropLast)).map
    fun p => p.1 ∪ p.2).toFinset

/-- Body of the candidate loop of `generate_candidates` (src/apriori.py
lines 91-105): for each pair in order, if the `[:-1]` prefixes match,
form the union, reject it when some member of `self.boundary_sets` is a
subset, otherwise consult `estimate_support` and keep the candidate on
`True`.  `pos` is the position reached in the random stream; a successful
estimator call consumes `m.sample_size` values.  A `ValueError` from the
estimator propagates (`none`). -/
def genCandsAux (enum : Finset ℕ → List ℕ) (rng : ℕ → ℕ) (m : MinerState) :
    List (Finset ℕ × Finset ℕ) → ℕ → Finset (Finset ℕ) →
      Option (Finset (Finset ℕ) × ℕ)
  | [], pos, acc => some (acc, pos)
  | p :: rest, pos, acc =>
    if (enum p.1).dropLast = (enum p.2).dropLast then
      if ∃ b ∈ m.boundary_sets, b ⊆ p.1 ∪ p.2 then
        genCandsAux enum rng m rest pos acc
      else
        match AprioriMiner.estimate_support (fun i => rng (pos + i)) m (p.1 ∪ p.2) with
        | none => none
        | some true => genCandsAux enum rng m rest (pos + m.sample_size) (insert (p.1 ∪ p.2) acc)
        | some false => genCandsAux enum rng m rest (pos + m.sample_size) acc
    else genCandsAux enum rng m rest pos acc

/-- `AprioriMiner.generate_candidates(prev_frequent)` (src/apriori.py
lines 82-107).  `enum2` models `list(prev_frequent)` — the iteration
order of the Python set of frozensets — and `enum` models
`list(itemset)` inside the prefix test. -/
def AprioriMiner.generate_candidates (enum : Finset ℕ → List ℕ)
    (enum2 : Finset (Finset ℕ) → List (Finset ℕ)) (rng : ℕ → ℕ)
    (m : MinerState) (prev_frequent : Finset (Finset ℕ)) (pos : ℕ) :
    Option (Finset (Finset ℕ) × ℕ) :=
  genCandsAux enum rng m (pairsList (enum2 prev_frequent)) pos ∅

/-- `supports[candidate]` after the scan of `calculate_support`
(src/apriori.py lines 117-125): the number of active transactions
containing the candidate. -/
def countSupport (m : MinerState) (candidate : Finset ℕ) : ℕ :=
  (m.unique_transactions.filter fun idx => candidate ⊆ txGet m idx).card

/-- `removable_transactions` of `calculate_support` (src/apriori.py lines
127-129): active transactions containing none of the candidates. -/
def removable (m : MinerState) (candidates : Finset (Finset ℕ)) : Finset ℕ :=
  m.unique_transactions.filter fun idx => ∀ c ∈ candidates, ¬ c ⊆ txGet m idx

/-- `AprioriMiner.calculate_support(candidates)` (src/apriori.py lines
109-135): returns the state with the marked transactions removed from
`self.unique_transactions`, together with the returned dictionary —
the pairs `(itemset, count / self.n_transactions)` for every candidate
whose count is positive (a `defaultdict(int)` only acquires the keys
that were incremented). -/
def AprioriMiner.calculate_support (m : MinerState)
    (candidates : Finset (Finset ℕ)) :
    MinerState × Finset (Finset ℕ × ℚ) :=
  ({ m with unique_transactions := m.unique_transactions \ removable m candidates },
   (candidates.filter fun c => 0 < countSupport m c).image
     fun c => (c, ratioOf (countSupport m c) m.n_transactions))

/-- `frequent_k` of the mining loop (src/apriori.py lines 157-158): the
itemsets of the supports dictionary whose ratio reaches `min_support`. -/
def frequentOf (min_support : ℚ) (supports : Finset (Finset ℕ × ℚ)) :
    Finset (Finset ℕ) :=
  (supports.filter fun q => min_support ≤ q.2).image Prod.fst

/-- `boundary_k` of the mining loop (src/apriori.py lines 159-160): the
itemsets of the supports dictionary whose ratio is below `min_support`. -/
def boundaryOf (min_support : ℚ) (supports : Finset (Finset ℕ × ℚ)) :
    Finset (Finset ℕ) :=
  (supports.filter fun q => q.2 < min_support).image Prod.fst

/-- Outcome of the mining loop: `ok m pos` is a normal return carrying the
final state (whose `frequent_itemsets` field is the returned table) and
the position reached in the random stream; `sampleError` is a `ValueError`
escaping from `random.sample`; `fuelOut` marks exhaustion of the fuel
parameter of the model (not a behaviour of the source). -/
inductive MineResult where
  | ok (m : MinerState) (pos : ℕ)
  | sampleError
  | fuelOut
deriving DecidableEq

/-- The `while self.frequent_itemsets[k-1]:` loop of
`mine_frequent_itemsets` (src/apriori.py lines 145-165).  The set for the
most recent level is the last entry of the table.  Each iteration
generates candidates, breaks when there are none, otherwise counts exact
supports, stores the frequent ones as the next level and folds the
infrequent ones into the boundary set. -/
def mineLoopAux (enum : Finset ℕ → List ℕ)
    (enum2 : Finset (Finset ℕ) → List (Finset ℕ)) (rng : ℕ → ℕ) :
    ℕ → MinerState → ℕ → MineResult
  | 0, m, pos =>
    if m.frequent_itemsets.getLastD ∅ = ∅ then .ok m pos else .fuelOut
  | fuel + 1, m, pos =>
    if m.frequent_itemsets.getLastD ∅ = ∅ then .ok m pos
    else
      match AprioriMiner.generate_candidates enum enum2 rng m
          (m.frequent_itemsets.getLastD ∅) pos with
      | none => .sampleError
      | some (candidates, pos') =>
        if candidates = ∅ then .ok m pos'
        else
          mineLoopAux enum enum2 rng fuel
            { (AprioriMiner.calculate_support m candidates).1 with
              frequent_itemsets :=
                (AprioriMiner.calculate_support m candidates).1.frequent_itemsets ++
                  [frequentOf m.min_support (AprioriMiner.calculate_support m candidates).2],
              boundary_sets :=
                (AprioriMiner.calculate_support m candidates).1.boundary_sets ∪
                  boundaryOf m.min_support (AprioriMiner.calculate_support m candidates).2 }
            pos'

/-- `AprioriMiner.mine_frequent_itemsets()` (src/apriori.py lines
137-167): run the level-1 scan, store its result as level 1, then run the
level loop. -/
def AprioriMiner.mine_frequent_itemsets (enum : Finset ℕ → List ℕ)
    (enum2 : Finset (Finset ℕ) → List (Finset ℕ)) (rng : ℕ → ℕ)
    (fuel : ℕ) (m : MinerState) : MineResult :=
  mineLoopAux enum enum2 rng fuel
    { (AprioriMiner.find_frequent_1_itemsets m).1 with
      frequent_itemsets := [(AprioriMiner.find_frequent_1_itemsets m).2] }
    0

/-- A valid enumeration of a `Finset`: what any iteration order of a
Python `frozenset` satisfies — no duplicates and exactly the members. -/
def ValidEnum (enum : Finset ℕ → List ℕ) : Prop :=
  ∀ s : Finset ℕ, (enum s).Nodup ∧ ∀ x, x ∈ enum s ↔ x ∈ s

/-- Union of all transactions: the item universe of the input. -/
def universeOf (t : List (Finset ℕ)) : Finset ℕ := t.foldr (· ∪ ·) ∅

/-- Soundness of an iteration order for a Python set of frozensets:
`list(S)` has no duplicates and only lists members of `S`. -/
def ValidEnum2 (enum2 : Finset (Finset ℕ) → List (Finset ℕ)) : Prop :=
  ∀ S : Finset (Finset ℕ), (enum2 S).Nodup ∧ ∀ s ∈ enum2 S, s ∈ S

/-- The concrete market-basket scenario of spec section 8, items encoded
as bread = 0, milk = 1, diapers = 2, beer = 3, eggs = 4, cola = 5. -/
def ctx8 : List (Finset ℕ) :=
  [{0, 1}, {0, 2, 3, 4}, {1, 2, 3, 5}, {0, 1, 2, 3}, {0, 1, 2, 5}]

/-- The miner of the concrete scenario: `AprioriMiner(ctx8,
min_support=0.3)` with the default `sample_size=1000` and
`confidence_level=0.95`. -/
def m8 : MinerState :=
  AprioriMiner.init ctx8 (Rat.divInt 3 10) 1000 (Rat.divInt 95 100)

/-- Four copies of {0,1,2,3} plus a lone {4}: with min_support 1/2 the
level-2 scan removes transaction 4 from the active set, after which the
fixed sample size 5 exceeds the 4 remaining active indices. -/
def ctx6 : List (Finset ℕ) :=
  [{0, 1, 2, 3}, {0, 1, 2, 3}, {0, 1, 2, 3}, {0, 1, 2, 3}, {4}]

/-- All six 2-subsets of {0,1,2,3}. -/
def pairs4 : Finset (Finset ℕ) :=
  {{0, 1}, {0, 2}, {0, 3}, {1, 2}, {1, 3}, {2, 3}}

/-- A concrete iteration order for the two sets of itemsets the `ctx6` run
passes to `list(...)` inside `generate_candidates` — the four frequent
singletons at level 2 and the six frequent pairs at level 3,
distinguished by their sizes; any other argument gets the empty list.
(Any fixed orders are realisable as CPython iteration orders; the run
only consults these two sets.) -/
def enum2c : Finset (Finset ℕ) → List (Finset ℕ) := fun S =>
  if S.card = 4 then [{0}, {1}, {2}, {3}]
  else if S.card = 6 then [{0, 1}, {0, 2}, {0, 3}, {1, 2}, {1, 3}, {2, 3}]
  else []

/-- State of the `ctx6` miner after the level-1 scan has been stored. -/
def m6a : MinerState :=
  { (AprioriMiner.find_frequent_1_itemsets
      (AprioriMiner.init ctx6 (Rat.divInt 1 2) 1000 (Rat.divInt 95 100))).1 with
    frequent_itemsets := [(AprioriMiner.find_frequent_1_itemsets
      (AprioriMiner.init ctx6 (Rat.divInt 1 2) 1000 (Rat.divInt 95 100))).2] }

/-- State of the `ctx6` miner after the level-2 exact count: transaction 4
matched no candidate pair and has been removed from the active set. -/
def m6b : MinerState := (AprioriMiner.calculate_support m6a pairs4).1

/-- Transactions on items 0, 1 where the pair {0,1} occurs once in five:
frequent singletons, a generated pair candidate, but no frequent pair. -/
def tx10 : List (Finset ℕ) := [{0, 1}, {0}, {1}, {0}, {1}]

/-- State of the `tx10` miner (min_support 1/2) after the level-1 scan. -/
def mW : MinerState :=
  { (AprioriMiner.find_frequent_1_itemsets
      (AprioriMiner.init tx10 (Rat.divInt 1 2) 1000 (Rat.divInt 95 100))).1 with
    frequent_itemsets := [(AprioriMiner.find_frequent_1_itemsets
      (AprioriMiner.init tx10 (Rat.divInt 1 2) 1000 (Rat.divInt 95 100))).2] }

/-- Concrete iteration order for the one set of itemsets the `tx10` run
enumerates (the two frequent singletons). -/
def enum2w : Finset (Finset ℕ) → List (Finset ℕ) := fun S =>
  if S.card = 2 then [{0}, {1}] else []

/-- A frozenset iteration order under which {1,2} is listed last element
first.  For the source's string items, iteration order is governed by the
(seed-randomised) string hashes, so such an order is realisable; on every
set this function lists exactly the elements, without duplicates. -/
def enum0 : Finset ℕ → List ℕ := fun s => if s = {1, 2} then [2, 1] else enumFS s

lemma ratioOf_eq_div (count n : ℕ) : ratioOf count n = (count : ℚ) / (n : ℚ) := by
  rw [ratioOf, Rat.divInt_eq_div]
  push_cast
  rfl

lemma mem_enumFS (s : Finset ℕ) (x : ℕ) : x ∈ enumFS s ↔ x ∈ s := by
  unfold enumFS
  rw [List.mem_filter]
  constructor
  · rintro ⟨-, h⟩
    exact of_decide_eq_true h
  · intro h
    refine ⟨List.mem_range.mpr ?_, decide_eq_true h⟩
    have : id x ≤ s.sup id := Finset.le_sup h
    simpa using Nat.lt_succ_of_le this

lemma nodup_enumFS (s : Finset ℕ) : (enumFS s).Nodup :=
  (List.nodup_range _).filter _

lemma toFinset_enumFS (s : Finset ℕ) : (enumFS s).toFinset = s := by
  ext x
  rw [List.mem_toFinset, mem_enumFS]

lemma length_enumFS (s : Finset ℕ) : (enumFS s).length = s.card := by
  have h := List.toFinset_card_of_nodup (nodup_enumFS s)
  rw [toFinset_enumFS] at h
  exact h.symm

lemma sampleAux_spec (rng : ℕ → ℕ) :
    ∀ (k i : ℕ) (pop : List ℕ), k ≤ pop.length → pop.Nodup →
      (sampleAux rng i pop k).length = k ∧ (sampleAux rng i pop k).Nodup ∧
      ∀ x ∈ sampleAux rng i pop k, x ∈ pop := by
  intro k
  induction k with
  | zero =>
    intro i pop _ _
    refine ⟨rfl, List.nodup_nil, ?_⟩
    intro x hx
    simp [sampleAux] at hx
  | succ k ih =>
    intro i pop hk hnd
    have hpos : 0 < pop.length := lt_of_lt_of_le (Nat.succ_pos k) hk
    have hlt : rng i % pop.length < pop.length := Nat.mod_lt _ hpos
    have hxmem : pop.getD (rng i % pop.length) 0 ∈ pop := by
      rw [List.getD_eq_getElem _ _ hlt]
      exact List.getElem_mem hlt
    have herase : (pop.erase (pop.getD (rng i % pop.length) 0)).length =
        pop.length - 1 := List.length_erase_of_mem hxmem
    have hk' : k ≤ (pop.erase (pop.getD (rng i % pop.length) 0)).length := by
      omega
    have hnd' : (pop.erase (pop.getD (rng i % pop.length) 0)).Nodup :=
      hnd.erase _
    obtain ⟨hlen, hdup, hmem⟩ := ih (i + 1) _ hk' hnd'
    refine ⟨by rw [sampleAux, List.length_cons, hlen], ?_, ?_⟩
    · rw [sampleAux]
      refine List.nodup_cons.mpr ⟨?_, hdup⟩
      intro hx
      have := hmem _ hx
      rw [List.Nodup.mem_erase_iff hnd] at this
      exact this.1 rfl
    · intro x hx
      rw [sampleAux] at hx
      rcases List.mem_cons.mp hx with rfl | hx'
      · exact hxmem
      · exact List.mem_of_mem_erase (hmem _ hx')

lemma sampleAux_perm (rng : ℕ → ℕ) :
    ∀ (n i : ℕ) (pop : List ℕ), pop.Nodup → pop.length = n →
      (sampleAux rng i pop n).Perm pop := by
  intro n
  induction n with
  | zero =>
    intro i pop _ hlen
    rw [List.length_eq_zero] at hlen
    subst hlen
    rfl
  | succ n ih =>
    intro i pop hnd hlen
    have hpos : 0 < pop.length := by omega
    have hlt : rng i % pop.length < pop.length := Nat.mod_lt _ hpos
    have hxmem : pop.getD (rng i % pop.length) 0 ∈ pop := by
      rw [List.getD_eq_getElem _ _ hlt]
      exact List.getElem_mem hlt
    have herase : (pop.erase (pop.getD (rng i % pop.length) 0)).length = n := by
      rw [List.length_erase_of_mem hxmem]
      omega
    have hperm := ih (i + 1) _ (hnd.erase _) herase
    rw [sampleAux]
    exact ((hperm.cons _).trans (List.perm_cons_erase hxmem).symm)

lemma qmul_eq (a b : ℚ) : qmul a b = a * b := by
  rw [qmul, Rat.divInt_eq_div]
  push_cast
  conv_rhs => rw [← Rat.num_div_den a, ← Rat.num_div_den b]
  rw [div_mul_div_comm]

lemma qsub_eq (a b : ℚ) : qsub a b = a - b := by
  have h1 : ((a.den : ℚ)) ≠ 0 := Nat.cast_ne_zero.mpr (Rat.den_ne_zero a)
  have h2 : ((b.den : ℚ)) ≠ 0 := Nat.cast_ne_zero.mpr (Rat.den_ne_zero b)
  rw [qsub, Rat.divInt_eq_div]
  push_cast
  conv_rhs => rw [← Rat.num_div_den a, ← Rat.num_div_den b]
  rw [div_sub_div _ _ h1 h2]
  ring_nf

lemma qdivN_eq (a : ℚ) (n : ℕ) : qdivN a n = a / n := by
  rw [qdivN, Rat.divInt_eq_div]
  push_cast
  conv_rhs => rw [← Rat.num_div_den a]
  rw [div_div]

lemma estimateAccept_eq_true_iff (z p_hat min_support : ℚ) (sample_size : ℕ) :
    estimateAccept z p_hat min_support sample_size = true ↔
      (min_support ≤ p_hat ∨
        (min_support - p_hat) ^ 2 ≤ z ^ 2 * (p_hat * (1 - p_hat) / sample_size)) := by
  have e1 : (min_support - p_hat) ^ 2 =
      (min_support - p_hat) * (min_support - p_hat) := by ring
  have e2 : z ^ 2 * (p_hat * (1 - p_hat) / (sample_size : ℚ)) =
      z * z * (p_hat * (1 - p_hat) / (sample_size : ℚ)) := by ring
  rw [estimateAccept]
  split
  · rename_i h
    simp only [true_iff]
    exact Or.inl h
  · rename_i h
    rw [decide_eq_true_iff]
    simp only [qmul_eq, qsub_eq, qdivN_eq]
    constructor
    · intro h2
      right
      rw [e1, e2]
      exact h2
    · rintro (h2 | h2)
      · exact absurd h2 h
      · rw [e1, e2] at h2
        exact h2

lemma mem_pairsList {α : Type*} {l : List α} {p : α × α}
    (h : p ∈ pairsList l) : p.1 ∈ l ∧ p.2 ∈ l := by
  induction l with
  | nil => simp [pairsList] at h
  | cons x xs ih =>
    simp only [pairsList, List.mem_append, List.mem_map] at h
    rcases h with ⟨y, hy, hp⟩ | h
    · subst hp
      exact ⟨List.mem_cons_self x xs, List.mem_cons_of_mem x hy⟩
    · exact ⟨List.mem_cons_of_mem x (ih h).1, List.mem_cons_of_mem x (ih h).2⟩

lemma pairsList_ne {α : Type*} {l : List α} (hnd : l.Nodup) {p : α × α}
    (hp : p ∈ pairsList l) : p.1 ≠ p.2 := by
  induction l with
  | nil => simp [pairsList] at hp
  | cons x xs ih =>
    simp only [pairsList, List.mem_append, List.mem_map] at hp
    rcases hp with ⟨y, hy, hp⟩ | hp
    · subst hp
      dsimp only
      intro h
      exact (List.nodup_cons.mp hnd).1 (h ▸ hy)
    · exact ih (List.Nodup.of_cons hnd) hp

lemma pairsList_mem_of {α : Type*} {l : List α} (hnd : l.Nodup) {a b : α}
    (ha : a ∈ l) (hb : b ∈ l) (hne : a ≠ b) :
    (a, b) ∈ pairsList l ∨ (b, a) ∈ pairsList l := by
  induction l with
  | nil => simp at ha
  | cons x xs ih =>
    rcases List.mem_cons.mp ha with rfl | ha'
    · left
      have hb' : b ∈ xs := (List.mem_cons.mp hb).resolve_left fun h => hne h.symm
      simp only [pairsList, List.mem_append, List.mem_map]
      exact Or.inl ⟨b, hb', rfl⟩
    · rcases List.mem_cons.mp hb with rfl | hb'
      · right
        simp only [pairsList, List.mem_append, List.mem_map]
        exact Or.inl ⟨a, ha', rfl⟩
      · rcases ih (List.Nodup.of_cons hnd) ha' hb' with h | h
        · left
          simp only [pairsList, List.mem_append]
          exact Or.inr h
        · right
          simp only [pairsList, List.mem_append]
          exact Or.inr h

/-- The pre-pruning join step forms exactly the unions of unordered pairs
of distinct itemsets of `l` whose enumerations-without-last-element
coincide. -/
lemma mem_joinPairs_iff (enum : Finset ℕ → List ℕ) {l : List (Finset ℕ)}
    (hnd : l.Nodup) (c : Finset ℕ) :
    c ∈ joinPairs enum l ↔ ∃ s1 s2, s1 ∈ l ∧ s2 ∈ l ∧ s1 ≠ s2 ∧
      (enum s1).dropLast = (enum s2).dropLast ∧ c = s1 ∪ s2 := by
  unfold joinPairs
  rw [List.mem_toFinset, List.mem_map]
  constructor
  · rintro ⟨p, hp, rfl⟩
    rw [List.mem_filter] at hp
    obtain ⟨hp1, hp2⟩ := hp
    exact ⟨p.1, p.2, (mem_pairsList hp1).1, (mem_pairsList hp1).2,
      pairsList_ne hnd hp1, of_decide_eq_true hp2, rfl⟩
  · rintro ⟨s1, s2, h1, h2, hne, hdl, rfl⟩
    rcases pairsList_mem_of hnd h1 h2 hne with h | h
    · exact ⟨(s1, s2), List.mem_filter.mpr ⟨h, decide_eq_true hdl⟩, rfl⟩
    · exact ⟨(s2, s1), List.mem_filter.mpr ⟨h, decide_eq_true hdl.symm⟩,
        Finset.union_comm s2 s1⟩

lemma validEnum_enumFS : ValidEnum enumFS :=
  fun s => ⟨nodup_enumFS s, mem_enumFS s⟩

/-- Joining two distinct `n`-element itemsets whose
enumerations-without-last-element agree yields an `(n+1)`-element
itemset: the two enumerations are a common prefix of length `n-1`
followed by two different last items. -/
lemma join_card {enum : Finset ℕ → List ℕ} (hEnum : ValidEnum enum)
    {s1 s2 : Finset ℕ} {n : ℕ} (h1 : s1.card = n) (h2 : s2.card = n)
    (hn : 1 ≤ n) (hne : s1 ≠ s2)
    (hd : (enum s1).dropLast = (enum s2).dropLast) :
    (s1 ∪ s2).card = n + 1 := by
  obtain ⟨hnd1, hmem1⟩ := hEnum s1
  obtain ⟨hnd2, hmem2⟩ := hEnum s2
  have hfs1 : (enum s1).toFinset = s1 := by
    ext x
    rw [List.mem_toFinset, hmem1]
  have hfs2 : (enum s2).toFinset = s2 := by
    ext x
    rw [List.mem_toFinset, hmem2]
  have hlen1 : (enum s1).length = n := by
    have := List.toFinset_card_of_nodup hnd1
    rw [hfs1, h1] at this
    exact this.symm
  have hlen2 : (enum s2).length = n := by
    have := List.toFinset_card_of_nodup hnd2
    rw [hfs2, h2] at this
    exact this.symm
  have hne1 : enum s1 ≠ [] := by
    intro h
    rw [h] at hlen1
    simp at hlen1
    omega
  have hne2 : enum s2 ≠ [] := by
    intro h
    rw [h] at hlen2
    simp at hlen2
    omega
  have hsplit1 : (enum s1).dropLast ++ [(enum s1).getLast hne1] = enum s1 :=
    List.dropLast_append_getLast hne1
  have hsplit2 : (enum s1).dropLast ++ [(enum s2).getLast hne2] = enum s2 := by
    rw [hd]
    exact List.dropLast_append_getLast hne2
  have hnd1' : ((enum s1).dropLast ++ [(enum s1).getLast hne1]).Nodup := by
    rw [hsplit1]
    exact hnd1
  have hnd2' : ((enum s1).dropLast ++ [(enum s2).getLast hne2]).Nodup := by
    rw [hsplit2]
    exact hnd2
  have had : (enum s1).getLast hne1 ∉ (enum s1).dropLast := by
    intro h
    exact (List.nodup_append.mp hnd1').2.2 h (List.mem_singleton_self _)
  have hbd : (enum s2).getLast hne2 ∉ (enum s1).dropLast := by
    intro h
    exact (List.nodup_append.mp hnd2').2.2 h (List.mem_singleton_self _)
  have hs1 : s1 = insert ((enum s1).getLast hne1) (enum s1).dropLast.toFinset := by
    ext x
    rw [← hmem1 x]
    conv_lhs => rw [← hsplit1]
    simp only [List.mem_append, List.mem_singleton, Finset.mem_insert,
      List.mem_toFinset]
    tauto
  have hs2 : s2 = insert ((enum s2).getLast hne2) (enum s1).dropLast.toFinset := by
    ext x
    rw [← hmem2 x]
    conv_lhs => rw [← hsplit2]
    simp only [List.mem_append, List.mem_singleton, Finset.mem_insert,
      List.mem_toFinset]
    tauto
  have hab : (enum s1).getLast hne1 ≠ (enum s2).getLast hne2 := by
    intro h
    apply hne
    rw [hs1, hs2, h]
  have hdT : (enum s1).dropLast.toFinset.card = n - 1 := by
    have hndd : (enum s1).dropLast.Nodup := (List.nodup_append.mp hnd1').1
    rw [List.toFinset_card_of_nodup hndd, List.length_dropLast, hlen1]
  have hadT : (enum s1).getLast hne1 ∉ (enum s1).dropLast.toFinset :=
    fun h => had (List.mem_toFinset.mp h)
  have hbdT : (enum s2).getLast hne2 ∉ (enum s1).dropLast.toFinset :=
    fun h => hbd (List.mem_toFinset.mp h)
  have hunion : s1 ∪ s2 = insert ((enum s1).getLast hne1)
      (insert ((enum s2).getLast hne2) (enum s1).dropLast.toFinset) := by
    ext x
    rw [Finset.mem_union]
    conv_lhs => rw [hs1, hs2]
    simp only [Finset.mem_insert]
    tauto
  rw [hunion, Finset.card_insert_of_not_mem, Finset.card_insert_of_not_mem hbdT, hdT]
  · omega
  · rw [Finset.mem_insert]
    push_neg
    exact ⟨hab, hadT⟩

/-- Every candidate accepted by the loop of `generate_candidates` that is
not already in the accumulator arises from a pending pair that passed the
prefix test, as the union of that pair. -/
lemma genCandsAux_mem (enum : Finset ℕ → List ℕ) (rng : ℕ → ℕ) (m : MinerState) :
    ∀ (ps : List (Finset ℕ × Finset ℕ)) (pos : ℕ) (acc res : Finset (Finset ℕ))
      (pos' : ℕ), genCandsAux enum rng m ps pos acc = some (res, pos') →
      ∀ c ∈ res, c ∈ acc ∨ ∃ p, p ∈ ps ∧
        (enum p.1).dropLast = (enum p.2).dropLast ∧ c = p.1 ∪ p.2 := by
  intro ps
  induction ps with
  | nil =>
    intro pos acc res pos' h c hc
    rw [genCandsAux] at h
    cases h
    exact Or.inl hc
  | cons p rest ih =>
    intro pos acc res pos' h c hc
    rw [genCandsAux] at h
    split at h
    · rename_i hguard
      split at h
      · rcases ih _ _ _ _ h c hc with h' | ⟨q, hq, hg, hu⟩
        · exact Or.inl h'
        · exact Or.inr ⟨q, List.mem_cons_of_mem _ hq, hg, hu⟩
      · split at h
        · exact absurd h (by simp)
        · rcases ih _ _ _ _ h c hc with h' | ⟨q, hq, hg, hu⟩
          · rcases Finset.mem_insert.mp h' with rfl | hacc
            · exact Or.inr ⟨p, List.mem_cons_self _ _, hguard, rfl⟩
            · exact Or.inl hacc
          · exact Or.inr ⟨q, List.mem_cons_of_mem _ hq, hg, hu⟩
        · rcases ih _ _ _ _ h c hc with h' | ⟨q, hq, hg, hu⟩
          · exact Or.inl h'
          · exact Or.inr ⟨q, List.mem_cons_of_mem _ hq, hg, hu⟩
    · rcases ih _ _ _ _ h c hc with h' | ⟨q, hq, hg, hu⟩
      · exact Or.inl h'
      · exact Or.inr ⟨q, List.mem_cons_of_mem _ hq, hg, hu⟩

lemma generate_candidates_mem (enum : Finset ℕ → List ℕ)
    (enum2 : Finset (Finset ℕ) → List (Finset ℕ)) (rng : ℕ → ℕ)
    (m : MinerState) (prev_frequent : Finset (Finset ℕ)) (pos : ℕ)
    (candidates : Finset (Finset ℕ)) (pos' : ℕ)
    (h : AprioriMiner.generate_candidates enum enum2 rng m prev_frequent pos =
      some (candidates, pos')) :
    ∀ c ∈ candidates, ∃ p, p ∈ pairsList (enum2 prev_frequent) ∧
      (enum p.1).dropLast = (enum p.2).dropLast ∧ c = p.1 ∪ p.2 := by
  intro c hc
  rcases genCandsAux_mem enum rng m _ _ _ _ _ h c hc with h' | h'
  · exact absurd h' (Finset.not_mem_empty c)
  · exact h'

/-- The candidates returned by `generate_candidates` all lie in the
pre-pruning join set `joinPairs`: pruning only removes candidates. -/
lemma generate_candidates_subset_joinPairs (enum : Finset ℕ → List ℕ)
    (enum2 : Finset (Finset ℕ) → List (Finset ℕ)) (rng : ℕ → ℕ)
    (m : MinerState) (prev_frequent : Finset (Finset ℕ)) (pos : ℕ)
    (candidates : Finset (Finset ℕ)) (pos' : ℕ)
    (h : AprioriMiner.generate_candidates enum enum2 rng m prev_frequent pos =
      some (candidates, pos')) :
    candidates ⊆ joinPairs enum (enum2 prev_frequent) := by
  intro c hc
  obtain ⟨p, hp, hg, rfl⟩ := generate_candidates_mem enum enum2 rng m
    prev_frequent pos candidates pos' h c hc
  unfold joinPairs
  rw [List.mem_toFinset, List.mem_map]
  exact ⟨p, List.mem_filter.mpr ⟨hp, decide_eq_true hg⟩, rfl⟩

/-- Membership in the dictionary returned by `calculate_support`: exactly
the candidates with a positive count, paired with their support ratio. -/
lemma mem_calculate_support_iff (m : MinerState)
    (candidates : Finset (Finset ℕ)) (c : Finset ℕ) (q : ℚ) :
    (c, q) ∈ (AprioriMiner.calculate_support m candidates).2 ↔
      c ∈ candidates ∧ 0 < countSupport m c ∧
        q = ratioOf (countSupport m c) m.n_transactions := by
  simp only [AprioriMiner.calculate_support, Finset.mem_image,
    Finset.mem_filter, Prod.mk.injEq]
  constructor
  · rintro ⟨a, ⟨ha, hpos⟩, rfl, rfl⟩
    exact ⟨ha, hpos, rfl⟩
  · rintro ⟨ha, hpos, rfl⟩
    exact ⟨c, ⟨ha, hpos⟩, rfl, rfl⟩

lemma frequentOf_calculate_subset (m : MinerState)
    (candidates : Finset (Finset ℕ)) (ms : ℚ) :
    frequentOf ms (AprioriMiner.calculate_support m candidates).2 ⊆ candidates := by
  intro x hx
  simp only [frequentOf, Finset.mem_image, Finset.mem_filter] at hx
  obtain ⟨⟨c, q⟩, ⟨hmem, -⟩, rfl⟩ := hx
  exact ((mem_calculate_support_iff m candidates c q).mp hmem).1

/-- Removing the transactions matching no candidate does not change any
candidate's count: the removed transactions contributed zero. -/
lemma countSupport_after_removal (m : MinerState)
    (candidates : Finset (Finset ℕ)) (c : Finset ℕ) (hc : c ∈ candidates) :
    countSupport (AprioriMiner.calculate_support m candidates).1 c =
      countSupport m c := by
  unfold countSupport AprioriMiner.calculate_support
  congr 1
  ext idx
  simp only [Finset.mem_filter, Finset.mem_sdiff]
  constructor
  · rintro ⟨⟨hi, -⟩, hsub⟩
    exact ⟨hi, hsub⟩
  · rintro ⟨hi, hsub⟩
    refine ⟨⟨hi, ?_⟩, hsub⟩
    intro hrem
    rw [removable, Finset.mem_filter] at hrem
    exact hrem.2 c hc hsub

lemma mem_find1_iff (m : MinerState) (s : Finset ℕ) :
    s ∈ (AprioriMiner.find_frequent_1_itemsets m).2 ↔
      ∃ i, i ∈ allItems m ∧
        m.min_support ≤ ratioOf (itemCount m i) m.n_transactions ∧ s = {i} := by
  simp only [AprioriMiner.find_frequent_1_itemsets, Finset.mem_image,
    Finset.mem_filter]
  constructor
  · rintro ⟨i, ⟨hi, hle⟩, rfl⟩
    exact ⟨i, hi, hle, rfl⟩
  · rintro ⟨i, hi, hle, rfl⟩
    exact ⟨i, ⟨hi, hle⟩, rfl⟩

lemma singleton_mem_find1_iff (m : MinerState) (i : ℕ) :
    ({i} : Finset ℕ) ∈ (AprioriMiner.find_frequent_1_itemsets m).2 ↔
      i ∈ allItems m ∧
        m.min_support ≤ ratioOf (itemCount m i) m.n_transactions := by
  rw [mem_find1_iff]
  constructor
  · rintro ⟨j, hj, hle, hs⟩
    rw [Finset.singleton_inj] at hs
    subst hs
    exact ⟨hj, hle⟩
  · rintro ⟨hi, hle⟩
    exact ⟨i, hi, hle, rfl⟩

lemma mem_universeOf {t : List (Finset ℕ)} {s : Finset ℕ} (hs : s ∈ t) :
    s ⊆ universeOf t := by
  induction t with
  | nil => simp at hs
  | cons a t ih =>
    rcases List.mem_cons.mp hs with rfl | hs'
    · intro x hx
      simp only [universeOf, List.foldr_cons, Finset.mem_union]
      exact Or.inl hx
    · intro x hx
      simp only [universeOf, List.foldr_cons, Finset.mem_union]
      exact Or.inr (ih hs' hx)

lemma allItems_init_subset (t : List (Finset ℕ)) (ms : ℚ) (ss : ℕ) (cl : ℚ) :
    allItems (AprioriMiner.init t ms ss cl) ⊆ universeOf t := by
  intro x hx
  rw [allItems, Finset.mem_biUnion] at hx
  obtain ⟨idx, hidx, hxin⟩ := hx
  have hlt : idx < t.length := Finset.mem_range.mp hidx
  have htx : txGet (AprioriMiner.init t ms ss cl) idx ∈ t := by
    show t.getD idx ∅ ∈ t
    rw [List.getD_eq_getElem _ _ hlt]
    exact List.getElem_mem hlt
  exact mem_universeOf htx hxin

lemma getD_pred_eq_getLastD {α : Type*} :
    ∀ (l : List α), l ≠ [] → ∀ (d d' : α), l.getD (l.length - 1) d = l.getLastD d' := by
  intro l
  induction l with
  | nil => intro h; exact absurd rfl h
  | cons x xs ih =>
    intro _ d d'
    cases xs with
    | nil => rfl
    | cons y ys =>
      have h1 : (x :: y :: ys).length - 1 = (y :: ys).length - 1 + 1 := by
        simp
      rw [h1, List.getD_cons_succ]
      show (y :: ys).getD ((y :: ys).length - 1) d = (y :: ys).getLastD x
      exact ih (by simp) d x

/-- The loop never changes the transaction store, the original transaction
count, the threshold or the sample size. -/
lemma mineLoopAux_preserves (enum : Finset ℕ → List ℕ)
    (enum2 : Finset (Finset ℕ) → List (Finset ℕ)) (rng : ℕ → ℕ) :
    ∀ (fuel : ℕ) (m : MinerState) (pos : ℕ) (m' : MinerState) (pos' : ℕ),
      mineLoopAux enum enum2 rng fuel m pos = .ok m' pos' →
      m'.transactions = m.transactions ∧ m'.n_transactions = m.n_transactions ∧
      m'.min_support = m.min_support ∧ m'.sample_size = m.sample_size := by
  intro fuel
  induction fuel with
  | zero =>
    intro m pos m' pos' h
    rw [mineLoopAux] at h
    split at h
    · cases h
      exact ⟨rfl, rfl, rfl, rfl⟩
    · cases h
  | succ fuel ih =>
    intro m pos m' pos' h
    rw [mineLoopAux] at h
    split at h
    · cases h
      exact ⟨rfl, rfl, rfl, rfl⟩
    · split at h
      · cases h
      · rename_i candidates pos''
        split at h
        · cases h
          exact ⟨rfl, rfl, rfl, rfl⟩
        · have h2 := ih _ _ _ _ h
          exact h2

/-- A normal return of the loop happens exactly at the two exits of the
source: either the level it would extend from is empty, or candidate
generation (starting at some stream position) returned no candidates. -/
lemma mineLoopAux_ok_characterization (enum : Finset ℕ → List ℕ)
    (enum2 : Finset (Finset ℕ) → List (Finset ℕ)) (rng : ℕ → ℕ) :
    ∀ (fuel : ℕ) (m : MinerState) (pos : ℕ) (m' : MinerState) (pos' : ℕ),
      mineLoopAux enum enum2 rng fuel m pos = .ok m' pos' →
      m'.frequent_itemsets.getLastD ∅ = ∅ ∨
        ∃ pos0, AprioriMiner.generate_candidates enum enum2 rng m'
          (m'.frequent_itemsets.getLastD ∅) pos0 = some (∅, pos') := by
  intro fuel
  induction fuel with
  | zero =>
    intro m pos m' pos' h
    rw [mineLoopAux] at h
    split at h
    · rename_i hprev
      cases h
      exact Or.inl hprev
    · cases h
  | succ fuel ih =>
    intro m pos m' pos' h
    rw [mineLoopAux] at h
    split at h
    · rename_i hprev
      cases h
      exact Or.inl hprev
    · rename_i hprev
      split at h
      · cases h
      · rename_i candidates pos'' hgen
        split at h
        · rename_i hcand
          cases h
          subst hcand
          exact Or.inr ⟨pos, hgen⟩
        · exact ih _ _ _ _ h

lemma validEnum2_of_empty : ValidEnum2 fun _ => [] := by
  intro S
  refine ⟨List.nodup_nil, ?_⟩
  intro s hs
  simp at hs

/-- Termination of the level loop: every itemset of the last stored level
has the level's size and lives inside the item universe `U`, so the table
can grow to at most `U.card` levels; with enough fuel the loop therefore
never exhausts it (it returns or raises, but never diverges). -/
lemma mineLoopAux_no_fuelOut (enum : Finset ℕ → List ℕ)
    (enum2 : Finset (Finset ℕ) → List (Finset ℕ)) (rng : ℕ → ℕ)
    (U : Finset ℕ) (hEnum : ValidEnum enum) (hEnum2 : ValidEnum2 enum2) :
    ∀ (fuel : ℕ) (m : MinerState) (pos : ℕ),
      m.frequent_itemsets ≠ [] →
      (∀ s ∈ m.frequent_itemsets.getLastD ∅,
        s.card = m.frequent_itemsets.length ∧ s ⊆ U) →
      U.card + 2 ≤ fuel + m.frequent_itemsets.length →
      mineLoopAux enum enum2 rng fuel m pos ≠ .fuelOut := by
  intro fuel
  induction fuel with
  | zero =>
    intro m pos hne hinv hbound
    have hprev : m.frequent_itemsets.getLastD ∅ = ∅ := by
      by_contra hp
      obtain ⟨s, hs⟩ := Finset.nonempty_iff_ne_empty.mpr hp
      obtain ⟨hcard, hsub⟩ := hinv s hs
      have h1 : s.card ≤ U.card := Finset.card_le_card hsub
      omega
    intro hcontra
    rw [mineLoopAux, if_pos hprev] at hcontra
    cases hcontra
  | succ fuel ih =>
    intro m pos hne hinv hbound
    rw [mineLoopAux]
    split
    · intro hcontra
      cases hcontra
    · rename_i hprev
      split
      · intro hcontra
        cases hcontra
      · rename_i candidates pos' hgen
        split
        · intro hcontra
          cases hcontra
        · have hlen1 : 1 ≤ m.frequent_itemsets.length := List.length_pos.mpr hne
          have hcand : ∀ c ∈ candidates,
              c.card = m.frequent_itemsets.length + 1 ∧ c ⊆ U := by
            intro c hc
            obtain ⟨p, hp, hg, rfl⟩ := generate_candidates_mem enum enum2 rng m
              _ pos candidates pos' hgen c hc
            have hps := mem_pairsList hp
            have h1 := (hEnum2 _).2 _ hps.1
            have h2 := (hEnum2 _).2 _ hps.2
            have hpne := pairsList_ne (hEnum2 _).1 hp
            obtain ⟨hcard1, hsub1⟩ := hinv _ h1
            obtain ⟨hcard2, hsub2⟩ := hinv _ h2
            exact ⟨join_card hEnum hcard1 hcard2 hlen1 hpne hg,
              Finset.union_subset hsub1 hsub2⟩
          apply ih
          · simp
          · intro s hs
            rw [show ((AprioriMiner.calculate_support m candidates).1.frequent_itemsets ++
                [frequentOf m.min_support (AprioriMiner.calculate_support m candidates).2]).getLastD ∅ =
                frequentOf m.min_support (AprioriMiner.calculate_support m candidates).2
              from List.getLastD_concat _ _ _] at hs
            have hsc : s ∈ candidates :=
              frequentOf_calculate_subset m candidates m.min_support hs
            obtain ⟨hc1, hc2⟩ := hcand s hsc
            constructor
            · rw [List.length_append]
              exact hc1
            · exact hc2
          · rw [List.length_append]
            show U.card + 2 ≤ fuel + (m.frequent_itemsets.length + 1)
            omega

/-- Invariant behind the shape of the returned table: the loop only
advances past a level it just stored when that level is non-empty, so at
most the final entry of the table can be empty. -/
lemma mineLoopAux_nonfinal_nonempty (enum : Finset ℕ → List ℕ)
    (enum2 : Finset (Finset ℕ) → List (Finset ℕ)) (rng : ℕ → ℕ) :
    ∀ (fuel : ℕ) (m : MinerState) (pos : ℕ) (m' : MinerState) (pos' : ℕ),
      mineLoopAux enum enum2 rng fuel m pos = .ok m' pos' →
      m.frequent_itemsets ≠ [] →
      (∀ i, i + 1 < m.frequent_itemsets.length →
        m.frequent_itemsets.getD i ∅ ≠ ∅) →
      ∀ i, i + 1 < m'.frequent_itemsets.length →
        m'.frequent_itemsets.getD i ∅ ≠ ∅ := by
  intro fuel
  induction fuel with
  | zero =>
    intro m pos m' pos' h hne hinv
    rw [mineLoopAux] at h
    split at h
    · cases h
      exact hinv
    · cases h
  | succ fuel ih =>
    intro m pos m' pos' h hne hinv
    rw [mineLoopAux] at h
    split at h
    · cases h
      exact hinv
    · rename_i hprev
      split at h
      · cases h
      · rename_i candidates pos'' hgen
        split at h
        · cases h
          exact hinv
        · refine ih _ _ _ _ h (by simp) ?_
          have hsame : (AprioriMiner.calculate_support m candidates).1.frequent_itemsets =
              m.frequent_itemsets := rfl
          intro i hi
          rw [List.length_append, hsame] at hi
          show (m.frequent_itemsets ++
            [frequentOf m.min_support (AprioriMiner.calculate_support m candidates).2]).getD i ∅ ≠ ∅
          have hilt : i < m.frequent_itemsets.length := by
            simp at hi
            omega
          rw [List.getD_append _ _ _ _ hilt]
          rcases Nat.lt_or_ge (i + 1) m.frequent_itemsets.length with hlt | hge
          · exact hinv i hlt
          · have hieq : i = m.frequent_itemsets.length - 1 := by omega
            rw [hieq, getD_pred_eq_getLastD _ hne _ ∅]
            exact hprev

lemma mem_frequentOf {ms : ℚ} {supports : Finset (Finset ℕ × ℚ)} {x : Finset ℕ} :
    x ∈ frequentOf ms supports ↔ ∃ q, (x, q) ∈ supports ∧ ms ≤ q := by
  simp only [frequentOf, Finset.mem_image, Finset.mem_filter]
  constructor
  · rintro ⟨⟨c, q⟩, ⟨hm, hq⟩, rfl⟩
    exact ⟨q, hm, hq⟩
  · rintro ⟨q, hm, hq⟩
    exact ⟨(x, q), ⟨hm, hq⟩, rfl⟩

lemma mem_boundaryOf {ms : ℚ} {supports : Finset (Finset ℕ × ℚ)} {x : Finset ℕ} :
    x ∈ boundaryOf ms supports ↔ ∃ q, (x, q) ∈ supports ∧ q < ms := by
  simp only [boundaryOf, Finset.mem_image, Finset.mem_filter]
  constructor
  · rintro ⟨⟨c, q⟩, ⟨hm, hq⟩, rfl⟩
    exact ⟨q, hm, hq⟩
  · rintro ⟨q, hm, hq⟩
    exact ⟨(x, q), ⟨hm, hq⟩, rfl⟩

/-- C1 (amended).  The claim says construction fails with
`InvalidConfiguration` when `min_support` is outside (0,1], the
transaction collection is empty, or `sample_size` is non-positive.  The
source's `__init__` contains no validation at all: construction is a
total function that always succeeds, for every configuration, merely
storing the fields (with `sample_size` capped at the transaction count
and the z-score fixed at 1.96); no error can surface at construction
time because none is ever raised. -/
theorem claim1_construction_never_fails (transactions : List (Finset ℕ))
    (min_support : ℚ) (sample_size : ℕ) (confidence_level : ℚ) :
    (AprioriMiner.init transactions min_support sample_size confidence_level).min_support =
      min_support ∧
    (AprioriMiner.init transactions min_support sample_size confidence_level).n_transactions =
      transactions.length ∧
    (AprioriMiner.init transactions min_support sample_size confidence_level).sample_size =
      min sample_size transactions.length ∧
    (AprioriMiner.init transactions min_support sample_size confidence_level).z_score =
      Rat.divInt 196 100 ∧
    (AprioriMiner.init transactions min_support sample_size confidence_level).boundary_sets = ∅ ∧
    (AprioriMiner.init transactions min_support sample_size confidence_level).unique_transactions =
      Finset.range transactions.length :=
  ⟨rfl, rfl, rfl, rfl, rfl, rfl⟩

/-- C1 counterexample.  Constructing with `min_support = 1.1 ∉ (0,1]`, or
with an empty transaction collection, or with `sample_size = 0` succeeds
and yields an ordinary miner state — no `InvalidConfiguration` (the model
needs no error channel because the source raises nothing). -/
theorem claim1_counterexample :
    (1 : ℚ) < Rat.divInt 11 10 ∧
    (AprioriMiner.init ctx8 (Rat.divInt 11 10) 1000 (Rat.divInt 95 100)).min_support =
      Rat.divInt 11 10 ∧
    (AprioriMiner.init ctx8 (Rat.divInt 11 10) 1000 (Rat.divInt 95 100)).n_transactions = 5 ∧
    (AprioriMiner.init ([] : List (Finset ℕ)) (Rat.divInt 1 2) 1000
      (Rat.divInt 95 100)).n_transactions = 0 ∧
    (AprioriMiner.init ctx8 (Rat.divInt 3 10) 0 (Rat.divInt 95 100)).sample_size = 0 :=
  ⟨by decide, rfl, rfl, rfl, rfl⟩

/-- C2 (amended).  The sample is drawn without replacement — no index
twice, every drawn index active — but its size is the fixed
`self.sample_size = min(sample_size, n_transactions)` from construction,
not `min(sample_size, |active_indices|)` at call time: the draw succeeds
exactly when the fixed size still fits into the current active set, and
when the active set has shrunk below it `estimate_support` fails
(`random.sample` raises `ValueError`) instead of drawing a smaller
sample. -/
theorem claim2_sampling_without_replacement (rng : ℕ → ℕ) (m : MinerState)
    (itemset : Finset ℕ) :
    (randomSample rng (activeList m) m.sample_size ≠ none ↔
      m.sample_size ≤ m.unique_transactions.card) ∧
    (∀ l, randomSample rng (activeList m) m.sample_size = some l →
      l.Nodup ∧ l.length = m.sample_size ∧ ∀ x ∈ l, x ∈ m.unique_transactions) ∧
    (m.unique_transactions.card < m.sample_size →
      AprioriMiner.estimate_support rng m itemset = none) := by
  have hlen : (activeList m).length = m.unique_transactions.card := length_enumFS _
  have hnd : (activeList m).Nodup := nodup_enumFS _
  refine ⟨?_, ?_, ?_⟩
  · rw [randomSample]
    split
    · rename_i h
      rw [hlen] at h
      exact iff_of_true (by simp) h
    · rename_i h
      rw [hlen] at h
      exact iff_of_false (by simp) h
  · intro l hl
    rw [randomSample] at hl
    split at hl
    · rename_i h
      cases hl
      obtain ⟨h1, h2, h3⟩ := sampleAux_spec rng m.sample_size 0 (activeList m) h hnd
      exact ⟨h2, h1, fun x hx => (mem_enumFS _ _).mp (h3 x hx)⟩
    · cases hl
  · intro hcard
    have hgt : ¬ (m.sample_size ≤ (activeList m).length) := by
      rw [hlen]
      omega
    have hnone : randomSample rng (activeList m) m.sample_size = none := by
      rw [randomSample, if_neg hgt]
    rw [AprioriMiner.estimate_support, hnone]

/-- C2 witness: on the freshly constructed `m8` (five transactions, all
active, capped sample size 5) the sample is drawn, has no duplicate
index, and has the fixed size. -/
theorem claim2_witness :
    ([0, 1, 2, 3, 4] : List ℕ).Nodup ∧
    ([0, 1, 2, 3, 4] : List ℕ).length = m8.sample_size :=
  ⟨((claim2_sampling_without_replacement (fun _ => 0) m8 {0}).2.1
      [0, 1, 2, 3, 4] (by decide)).1,
   ((claim2_sampling_without_replacement (fun _ => 0) m8 {0}).2.1
      [0, 1, 2, 3, 4] (by decide)).2.1⟩

/-- C2 counterexample.  `m6b` is the `ctx6` miner after its level-2 exact
count removed transaction 4: the active set `{0,1,2,3}` is non-empty, yet
`estimate_support` draws no sample at all — `random.sample` raises
because the fixed sample size 5 exceeds the 4 active indices — so the
sample size is not `min(sample_size, |active_indices|) = 4` as claimed. -/
theorem claim2_counterexample :
    m6b.unique_transactions ≠ ∅ ∧
    m6b.unique_transactions.card < m6b.sample_size ∧
    AprioriMiner.estimate_support (fun _ => 0) m6b {0, 1} = none :=
  ⟨by decide, by decide, by decide⟩

/-- C3 (amended).  The claim says the join step pairs itemsets whose
first k-2 elements under the canonical sorted order agree.  The source
compares `list(itemset)[:-1]` — all but the last element under the
frozenset iteration order, which for its string items need not be the
sorted order.  What holds is: for any iteration order `enum`, a size-k
candidate is formed (before pruning) from exactly those unordered pairs
of distinct itemsets of `frequent_{k-1}` whose `enum`-lists without their
last element are identical, the candidate being the union of the pair
(and, for a genuine enumeration, of size k).  The claim's sorted-order
version is the special case where `enum` sorts. -/
theorem claim3_join_follows_iteration_order :
    (∀ (enum : Finset ℕ → List ℕ) (l : List (Finset ℕ)), l.Nodup →
      ∀ c : Finset ℕ,
        (c ∈ joinPairs enum l ↔ ∃ s1 s2, s1 ∈ l ∧ s2 ∈ l ∧ s1 ≠ s2 ∧
          (enum s1).dropLast = (enum s2).dropLast ∧ c = s1 ∪ s2)) ∧
    (∀ (enum : Finset ℕ → List ℕ), ValidEnum enum →
      ∀ (l : List (Finset ℕ)) (n : ℕ), l.Nodup → 1 ≤ n →
        (∀ s ∈ l, s.card = n) → ∀ c ∈ joinPairs enum l, c.card = n + 1) := by
  constructor
  · intro enum l hnd c
    exact mem_joinPairs_iff enum hnd c
  · intro enum hEnum l n hnd hn hcards c hc
    obtain ⟨s1, s2, h1, h2, hne, hd, rfl⟩ := (mem_joinPairs_iff enum hnd c).mp hc
    exact join_card hEnum (hcards s1 h1) (hcards s2 h2) hn hne hd

/-- C3 witness: under the ascending enumeration, {1,2} and {1,3} share
the length-(k-2) prefix [1], so the join forms {1,2,3}. -/
theorem claim3_witness :
    ({1, 2, 3} : Finset ℕ) ∈ joinPairs enumFS [{1, 2}, {1, 3}] :=
  (claim3_join_follows_iteration_order.1 enumFS [{1, 2}, {1, 3}] (by decide)
      {1, 2, 3}).mpr
    ⟨{1, 2}, {1, 3}, by decide, by decide, by decide, by decide,
      Finset.Subset.antisymm (by decide) (by decide)⟩

/-- C3 counterexample.  `enum0` is a legitimate frozenset iteration order
(no duplicates, exactly the members; realisable because string hash seeds
govern the real order) that lists {1,2} as [2,1].  The itemsets {1,2} and
{1,3} have identical first k-2 elements under the canonical sorted order,
yet the join step — `generate_candidates` with this iteration order —
forms no candidate from them at all, contradicting the claimed
sorted-order characterisation. -/
theorem claim3_counterexample :
    enum0 {1, 2} = [2, 1] ∧
    (enum0 {1, 2}).toFinset = {1, 2} ∧ (enum0 {1, 2}).Nodup ∧
    enum0 {1, 3} = [1, 3] ∧
    (enum0 {1, 3}).toFinset = {1, 3} ∧ (enum0 {1, 3}).Nodup ∧
    (enumFS ({1, 2} : Finset ℕ)).dropLast = (enumFS ({1, 3} : Finset ℕ)).dropLast ∧
    joinPairs enum0 [{1, 2}, {1, 3}] = ∅ ∧
    AprioriMiner.generate_candidates enum0
      (fun S => if S.card = 2 then [{1, 2}, {1, 3}] else [])
      (fun _ => 0) m8 {{1, 2}, {1, 3}} 0 = some (∅, 0) := by
  refine ⟨by decide, Finset.Subset.antisymm (by decide) (by decide), by decide,
    by decide, Finset.Subset.antisymm (by decide) (by decide), by decide,
    by decide, by decide, by decide⟩

/-- C4 (confirmed).  Every candidate that was counted — i.e. every key of
the dictionary `calculate_support` returns, which are exactly the
candidates occurring in at least one active transaction — is placed by
the threshold split of the mining loop in exactly one of `frequent_k`
(ratio ≥ min_support) and `infrequent_k` (ratio < min_support); the two
classes are disjoint and together exhaust the counted candidates. -/
theorem claim4_counted_candidates_partition (m : MinerState)
    (candidates : Finset (Finset ℕ)) :
    frequentOf m.min_support (AprioriMiner.calculate_support m candidates).2 ∪
        boundaryOf m.min_support (AprioriMiner.calculate_support m candidates).2 =
      ((AprioriMiner.calculate_support m candidates).2).image Prod.fst ∧
    Disjoint (frequentOf m.min_support (AprioriMiner.calculate_support m candidates).2)
      (boundaryOf m.min_support (AprioriMiner.calculate_support m candidates).2) ∧
    ((AprioriMiner.calculate_support m candidates).2).image Prod.fst =
      candidates.filter fun c => 0 < countSupport m c := by
  refine ⟨?_, ?_, ?_⟩
  · apply Finset.Subset.antisymm
    · apply Finset.union_subset
      · intro x hx
        obtain ⟨q, hm, -⟩ := mem_frequentOf.mp hx
        exact Finset.mem_image.mpr ⟨(x, q), hm, rfl⟩
      · intro x hx
        obtain ⟨q, hm, -⟩ := mem_boundaryOf.mp hx
        exact Finset.mem_image.mpr ⟨(x, q), hm, rfl⟩
    · intro x hx
      obtain ⟨⟨c, q⟩, hcq, rfl⟩ := Finset.mem_image.mp hx
      rcases le_or_lt m.min_support q with h | h
      · exact Finset.mem_union_left _ (mem_frequentOf.mpr ⟨q, hcq, h⟩)
      · exact Finset.mem_union_right _ (mem_boundaryOf.mpr ⟨q, hcq, h⟩)
  · rw [Finset.disjoint_left]
    intro x hxf hxb
    obtain ⟨q1, hm1, hle⟩ := mem_frequentOf.mp hxf
    obtain ⟨q2, hm2, hlt⟩ := mem_boundaryOf.mp hxb
    have e1 := ((mem_calculate_support_iff m candidates x q1).mp hm1).2.2
    have e2 := ((mem_calculate_support_iff m candidates x q2).mp hm2).2.2
    rw [e1] at hle
    rw [e2] at hlt
    exact absurd hle (not_le.mpr hlt)
  · ext x
    rw [Finset.mem_image, Finset.mem_filter]
    constructor
    · rintro ⟨⟨c, q⟩, hcq, rfl⟩
      have h := (mem_calculate_support_iff m candidates c q).mp hcq
      exact ⟨h.1, h.2.1⟩
    · rintro ⟨hx, hpos⟩
      exact ⟨(x, ratioOf (countSupport m x) m.n_transactions),
        (mem_calculate_support_iff m candidates x _).mpr ⟨hx, hpos, rfl⟩, rfl⟩

/-- C5 (confirmed).  Every support ratio the engine computes — in the
dictionary of `calculate_support` and in the level-1 scan's threshold
test — is the exact occurrence count divided by `self.n_transactions`,
and that denominator is the original transaction count fixed at
construction: `calculate_support` leaves it (and the transaction store)
untouched, and so does every run of the mining loop, while only
`unique_transactions` shrinks. -/
theorem claim5_fixed_denominator :
    (∀ (m : MinerState) (candidates : Finset (Finset ℕ)) (c : Finset ℕ) (q : ℚ),
      (c, q) ∈ (AprioriMiner.calculate_support m candidates).2 →
      q = (countSupport m c : ℚ) / (m.n_transactions : ℚ)) ∧
    (∀ (m : MinerState) (i : ℕ),
      ({i} : Finset ℕ) ∈ (AprioriMiner.find_frequent_1_itemsets m).2 ↔
        i ∈ allItems m ∧
          m.min_support ≤ (itemCount m i : ℚ) / (m.n_transactions : ℚ)) ∧
    (∀ (m : MinerState) (candidates : Finset (Finset ℕ)),
      ((AprioriMiner.calculate_support m candidates).1).n_transactions =
        m.n_transactions ∧
      ((AprioriMiner.calculate_support m candidates).1).transactions =
        m.transactions) ∧
    (∀ (enum : Finset ℕ → List ℕ) (enum2 : Finset (Finset ℕ) → List (Finset ℕ))
      (rng : ℕ → ℕ) (fuel : ℕ) (t : List (Finset ℕ)) (ms cl : ℚ) (ss : ℕ)
      (m' : MinerState) (pos' : ℕ),
      AprioriMiner.mine_frequent_itemsets enum enum2 rng fuel
        (AprioriMiner.init t ms ss cl) = MineResult.ok m' pos' →
      m'.n_transactions = t.length ∧ m'.transactions = t) := by
  refine ⟨?_, ?_, ?_, ?_⟩
  · intro m candidates c q h
    have := ((mem_calculate_support_iff m candidates c q).mp h).2.2
    rw [this, ratioOf_eq_div]
  · intro m i
    rw [singleton_mem_find1_iff, ratioOf_eq_div]
  · intro m candidates
    exact ⟨rfl, rfl⟩
  · intro enum enum2 rng fuel t ms cl ss m' pos' h
    rw [AprioriMiner.mine_frequent_itemsets] at h
    have h2 := mineLoopAux_preserves enum enum2 rng _ _ _ _ _ h
    exact ⟨h2.2.1, h2.1⟩

/-- C5 witness: in the concrete scenario the pair {bread, milk} is
contained in 3 of the 5 transactions, and the dictionary entry for it is
3 divided by the original transaction count. -/
theorem claim5_witness :
    ratioOf 3 5 = (countSupport m8 {0, 1} : ℚ) / (m8.n_transactions : ℚ) :=
  claim5_fixed_denominator.1 m8 {{0, 1}} {0, 1} (ratioOf 3 5) (by decide)

/-- C7 (confirmed).  With the candidate set fixed, invoking
`calculate_support` again right after a first invocation — whose only
side effect was removing the active transactions matching no candidate —
returns the identical itemset-to-ratio dictionary: the removed
transactions contributed zero to every candidate's count, and the
denominator is the fixed original transaction count. -/
theorem claim7_exact_counting_deterministic (m : MinerState)
    (candidates : Finset (Finset ℕ)) :
    (AprioriMiner.calculate_support
        ((AprioriMiner.calculate_support m candidates).1) candidates).2 =
      (AprioriMiner.calculate_support m candidates).2 := by
  have hfilter : (candidates.filter fun c =>
      0 < countSupport ((AprioriMiner.calculate_support m candidates).1) c) =
      candidates.filter fun c => 0 < countSupport m c := by
    apply Finset.filter_congr
    intro c hc
    rw [countSupport_after_removal m candidates c hc]
  show ((candidates.filter fun c =>
      0 < countSupport ((AprioriMiner.calculate_support m candidates).1) c).image
    fun c => (c, ratioOf
      (countSupport ((AprioriMiner.calculate_support m candidates).1) c)
      ((AprioriMiner.calculate_support m candidates).1).n_transactions)) = _
  rw [hfilter]
  apply Finset.image_congr
  intro c hc
  rw [Finset.mem_coe, Finset.mem_filter] at hc
  dsimp only
  rw [countSupport_after_removal m candidates c hc.1]
  rfl

/-- C6 (amended).  The claim says that on every valid input the miner
terminates and returns the per-level table, halting exactly when the next
candidate set is empty or the last level produced no frequent itemsets.
What holds is: the run always terminates — with fuel beyond the item
universe size the loop never exhausts it — but it terminates either by
returning the table, and then it halted exactly at one of the two claimed
exits, or by raising `ValueError` out of `random.sample` when the fixed
sample size exceeds the shrunken active set (see the counterexample); in
the error case no table is returned. -/
theorem claim6_terminates_or_raises (enum : Finset ℕ → List ℕ)
    (enum2 : Finset (Finset ℕ) → List (Finset ℕ)) (rng : ℕ → ℕ)
    (t : List (Finset ℕ)) (ms cl : ℚ) (ss : ℕ) (fuel : ℕ)
    (hEnum : ValidEnum enum) (hEnum2 : ValidEnum2 enum2)
    (ht : t ≠ []) (hms0 : 0 < ms) (hms1 : ms ≤ 1)
    (hfuel : (universeOf t).card + 1 ≤ fuel) :
    AprioriMiner.mine_frequent_itemsets enum enum2 rng fuel
      (AprioriMiner.init t ms ss cl) ≠ MineResult.fuelOut ∧
    ∀ (m' : MinerState) (pos' : ℕ),
      AprioriMiner.mine_frequent_itemsets enum enum2 rng fuel
        (AprioriMiner.init t ms ss cl) = MineResult.ok m' pos' →
      m'.frequent_itemsets.getLastD ∅ = ∅ ∨
        ∃ pos0, AprioriMiner.generate_candidates enum enum2 rng m'
          (m'.frequent_itemsets.getLastD ∅) pos0 = some (∅, pos') := by
  constructor
  · rw [AprioriMiner.mine_frequent_itemsets]
    apply mineLoopAux_no_fuelOut enum enum2 rng (universeOf t) hEnum hEnum2
    · simp
    · intro s hs
      have hs' : s ∈ (AprioriMiner.find_frequent_1_itemsets
          (AprioriMiner.init t ms ss cl)).2 := hs
      obtain ⟨i, hi, -, rfl⟩ := (mem_find1_iff _ _).mp hs'
      constructor
      · simp
      · intro x hx
        rw [Finset.mem_singleton] at hx
        subst hx
        exact allItems_init_subset t ms ss cl hi
    · simp only [List.length_singleton]
      omega
  · intro m' pos' h
    rw [AprioriMiner.mine_frequent_itemsets] at h
    exact mineLoopAux_ok_characterization enum enum2 rng _ _ _ _ _ h

/-- C6 witness: on the one-transaction input [{0}] with min_support 1/2
and fuel 2 (the universe has one item) the run does not exhaust its
fuel. -/
theorem claim6_witness :
    AprioriMiner.mine_frequent_itemsets enumFS (fun _ => []) (fun _ => 0) 2
      (AprioriMiner.init [{0}] (Rat.divInt 1 2) 1000 (Rat.divInt 95 100)) ≠
      MineResult.fuelOut :=
  (claim6_terminates_or_raises enumFS (fun _ => []) (fun _ => 0) [{0}]
    (Rat.divInt 1 2) (Rat.divInt 95 100) 1000 2 validEnum_enumFS
    validEnum2_of_empty (by decide) (by decide) (by decide) (by decide)).1

/-- C6 counterexample.  `ctx6` (four copies of {0,1,2,3} and a lone {4})
with min_support 1/2 is a valid input, yet `mine_frequent_itemsets` does
not return a table: the level-2 scan removes transaction 4 from the
active set, and at level 3 the estimator's `random.sample` call raises
because the fixed sample size 5 exceeds the 4 remaining indices — for
every random stream, since pigeonhole forces some pair of the six
frequent 2-itemsets to share a first element under any iteration
order (here the ascending one). -/
theorem claim6_counterexample :
    (0 : ℚ) < Rat.divInt 1 2 ∧ Rat.divInt 1 2 ≤ 1 ∧ ctx6 ≠ [] ∧
    AprioriMiner.mine_frequent_itemsets enumFS enum2c (fun _ => 0) 10
      (AprioriMiner.init ctx6 (Rat.divInt 1 2) 1000 (Rat.divInt 95 100)) =
      MineResult.sampleError :=
  ⟨by decide, by decide, by decide, by decide⟩

/-- C8 (amended).  The claim lists the expected frequent 1-itemsets of
the concrete scenario correctly — {bread}, {milk}, {diapers}, {beer},
{cola}, with {eggs} excluded at 1/5 — but misstates two of the supports:
bread and milk occur in four of the five transactions, so their supports
are 4/5, not the claimed 3/5 (diapers 4/5, beer 3/5, cola 2/5 are as
claimed).  Items: bread = 0, milk = 1, diapers = 2, beer = 3, eggs = 4,
cola = 5. -/
theorem claim8_level1_scan :
    (AprioriMiner.find_frequent_1_itemsets m8).2 = {{0}, {1}, {2}, {3}, {5}} ∧
    (itemCount m8 0 : ℚ) / (m8.n_transactions : ℚ) = 4 / 5 ∧
    (itemCount m8 1 : ℚ) / (m8.n_transactions : ℚ) = 4 / 5 ∧
    (itemCount m8 2 : ℚ) / (m8.n_transactions : ℚ) = 4 / 5 ∧
    (itemCount m8 3 : ℚ) / (m8.n_transactions : ℚ) = 3 / 5 ∧
    (itemCount m8 5 : ℚ) / (m8.n_transactions : ℚ) = 2 / 5 ∧
    (itemCount m8 4 : ℚ) / (m8.n_transactions : ℚ) = 1 / 5 ∧
    ({4} : Finset ℕ) ∉ (AprioriMiner.find_frequent_1_itemsets m8).2 := by
  have hn : m8.n_transactions = 5 := rfl
  have h0 : itemCount m8 0 = 4 := by decide
  have h1 : itemCount m8 1 = 4 := by decide
  have h2 : itemCount m8 2 = 4 := by decide
  have h3 : itemCount m8 3 = 3 := by decide
  have h5 : itemCount m8 5 = 2 := by decide
  have h4 : itemCount m8 4 = 1 := by decide
  refine ⟨by decide, ?_, ?_, ?_, ?_, ?_, ?_, by decide⟩
  · rw [h0, hn]
    norm_num
  · rw [h1, hn]
    norm_num
  · rw [h2, hn]
    norm_num
  · rw [h3, hn]
    norm_num
  · rw [h5, hn]
    norm_num
  · rw [h4, hn]
    norm_num

/-- C8 counterexample: {bread} is returned as frequent, but its support
in the five transactions is 4/5, which is not the claimed 3/5. -/
theorem claim8_counterexample :
    ({0} : Finset ℕ) ∈ (AprioriMiner.find_frequent_1_itemsets m8).2 ∧
    (itemCount m8 0 : ℚ) / (m8.n_transactions : ℚ) = 4 / 5 ∧
    ¬ ((4 : ℚ) / 5 = 3 / 5) := by
  refine ⟨by decide, ?_, by norm_num⟩
  rw [show itemCount m8 0 = 4 from by decide, show m8.n_transactions = 5 from rfl]
  norm_num

/-- C9 (confirmed).  The `confidence_level` constructor argument is dead:
`__init__` never stores or reads it and hard-codes `z_score = 1.96`, so
two constructions differing only in `confidence_level` yield the same
state, and every operation — the estimator under any random stream, and
the whole mining run — produces identical results. -/
theorem claim9_confidence_level_inert (t : List (Finset ℕ)) (ms : ℚ)
    (ss : ℕ) (cl cl' : ℚ) :
    AprioriMiner.init t ms ss cl = AprioriMiner.init t ms ss cl' ∧
    (AprioriMiner.init t ms ss cl).z_score = Rat.divInt 196 100 ∧
    (196 : ℚ) / 100 = Rat.divInt 196 100 ∧
    (∀ (rng : ℕ → ℕ) (itemset : Finset ℕ),
      AprioriMiner.estimate_support rng (AprioriMiner.init t ms ss cl) itemset =
        AprioriMiner.estimate_support rng (AprioriMiner.init t ms ss cl') itemset) ∧
    (∀ (enum : Finset ℕ → List ℕ) (enum2 : Finset (Finset ℕ) → List (Finset ℕ))
      (rng : ℕ → ℕ) (fuel : ℕ),
      AprioriMiner.mine_frequent_itemsets enum enum2 rng fuel
        (AprioriMiner.init t ms ss cl) =
      AprioriMiner.mine_frequent_itemsets enum enum2 rng fuel
        (AprioriMiner.init t ms ss cl')) := by
  refine ⟨rfl, rfl, ?_, fun _ _ => rfl, fun _ _ _ _ => rfl⟩
  rw [Rat.divInt_eq_div]
  norm_num

/-- C10 (confirmed).  If at a level k ≥ 2 the generated candidate set is
non-empty but no counted candidate reaches `min_support`, the loop stores
the empty set as level k — the state below, whose table is the old table
with `∅` appended — and the next loop test `while frequent[k-1]` then
halts, returning that table; and in every table a finished run returns,
every entry other than the last is non-empty, so at most one trailing
level is empty. -/
theorem claim10_trailing_empty_level :
    (∀ (enum : Finset ℕ → List ℕ) (enum2 : Finset (Finset ℕ) → List (Finset ℕ))
      (rng : ℕ → ℕ) (m : MinerState) (pos : ℕ) (candidates : Finset (Finset ℕ))
      (pos' fuel : ℕ),
      m.frequent_itemsets.getLastD ∅ ≠ ∅ →
      AprioriMiner.generate_candidates enum enum2 rng m
        (m.frequent_itemsets.getLastD ∅) pos = some (candidates, pos') →
      candidates ≠ ∅ →
      frequentOf m.min_support (AprioriMiner.calculate_support m candidates).2 = ∅ →
      mineLoopAux enum enum2 rng (fuel + 1) m pos = MineResult.ok
        { (AprioriMiner.calculate_support m candidates).1 with
          frequent_itemsets := m.frequent_itemsets ++ [∅],
          boundary_sets :=
            (AprioriMiner.calculate_support m candidates).1.boundary_sets ∪
              boundaryOf m.min_support
                (AprioriMiner.calculate_support m candidates).2 } pos') ∧
    (∀ (enum : Finset ℕ → List ℕ) (enum2 : Finset (Finset ℕ) → List (Finset ℕ))
      (rng : ℕ → ℕ) (fuel : ℕ) (t : List (Finset ℕ)) (ms cl : ℚ) (ss : ℕ)
      (m' : MinerState) (pos' : ℕ),
      AprioriMiner.mine_frequent_itemsets enum enum2 rng fuel
        (AprioriMiner.init t ms ss cl) = MineResult.ok m' pos' →
      ∀ i, i + 1 < m'.frequent_itemsets.length →
        m'.frequent_itemsets.getD i ∅ ≠ ∅) := by
  constructor
  · intro enum enum2 rng m pos candidates pos' fuel hprev hgen hcne hflat
    rw [mineLoopAux]
    rw [if_neg hprev, hgen]
    show (if candidates = ∅ then MineResult.ok m pos' else _) = _
    rw [if_neg hcne]
    rw [hflat]
    cases fuel with
    | zero =>
      rw [mineLoopAux]
      rw [if_pos]
      · rfl
      · exact List.getLastD_concat _ _ _
    | succ fuel =>
      rw [mineLoopAux]
      rw [if_pos]
      · rfl
      · exact List.getLastD_concat _ _ _
  · intro enum enum2 rng fuel t ms cl ss m' pos' h
    rw [AprioriMiner.mine_frequent_itemsets] at h
    refine mineLoopAux_nonfinal_nonempty enum enum2 rng _ _ _ _ _ h (by simp) ?_
    intro i hi
    simp only [List.length_singleton] at hi
    omega

/-- C10 witness: in the `tx10` run the only level-2 candidate {0,1} is
counted at ratio 1/5 < 1/2, so the loop stores ∅ as level 2 and halts
with the two-level table whose trailing entry is empty. -/
theorem claim10_witness :
    mineLoopAux enumFS enum2w (fun _ => 0) 2 mW 0 = MineResult.ok
      { (AprioriMiner.calculate_support mW {{0, 1}}).1 with
        frequent_itemsets := mW.frequent_itemsets ++ [∅],
        boundary_sets :=
          (AprioriMiner.calculate_support mW {{0, 1}}).1.boundary_sets ∪
            boundaryOf mW.min_support
              (AprioriMiner.calculate_support mW {{0, 1}}).2 } 5 :=
  claim10_trailing_empty_level.1 enumFS enum2w (fun _ => 0) mW 0 {{0, 1}} 5 1
    (by decide) (by decide) (by decide) (by decide)
